import Mathlib

/-!
Verification of the `StorageNMap` generator
(`frame/support/src/storage/generator/nmap.rs`).

The flat byte-keyed store is modelled as an association list sorted by
lexicographic order on raw byte keys; values and key components are modelled
as natural numbers with explicit byte codecs.
-/

namespace NMapGen

/-- Raw byte strings, modelled as lists of naturals. -/
abbrev Bytes := List Nat

/-- Strict lexicographic order on raw byte strings, the order in which the
underlying flat store keeps its keys. -/
def bytesLt : Bytes → Bytes → Bool
  | _, [] => false
  | [], _ :: _ => true
  | a :: as, b :: bs =>
    if a < b then true
    else if b < a then false
    else bytesLt as bs

/-- The flat byte-keyed store: an association list of (raw key, raw value)
entries, kept sorted by `bytesLt` on keys. -/
abbrev Store := List (Bytes × Bytes)

/-- Raw read (`sp_io::storage::get` on raw bytes): the value at the first
entry whose key matches. -/
def storeLookup : Store → Bytes → Option Bytes
  | [], _ => none
  | e :: es, k => if e.1 = k then some e.2 else storeLookup es k

/-- Raw write (`sp_io::storage::set`): replace the entry in place if the key
is present, otherwise insert at the sorted position. -/
def storePut : Store → Bytes → Bytes → Store
  | [], k, v => [(k, v)]
  | e :: es, k, v =>
    if e.1 = k then (k, v) :: es
    else if bytesLt k e.1 then (k, v) :: e :: es
    else e :: storePut es k v

/-- Raw delete (`sp_io::storage::clear` / `unhashed::kill`): remove every
entry at the key; a no-op when the key is absent. -/
def storeKill : Store → Bytes → Store
  | [], _ => []
  | e :: es, k => if e.1 = k then storeKill es k else e :: storeKill es k

/-- Raw `next_key` (`sp_io::storage::next_key`): the first key in store order
strictly greater than the cursor. -/
def storeNextKey : Store → Bytes → Option Bytes
  | [], _ => none
  | e :: es, k => if bytesLt k e.1 then some e.1 else storeNextKey es k

/-- Whether a raw key is occupied (`unhashed::exists`). -/
def storeExists (s : Store) (k : Bytes) : Bool :=
  (storeLookup s k).isSome

/-- The sortedness relation the flat store keeps its entries in. -/
def entryLt (a b : Bytes × Bytes) : Prop := bytesLt a.1 b.1 = true

instance entryLtDec : DecidableRel entryLt :=
  fun a b => inferInstanceAs (Decidable (bytesLt a.1 b.1 = true))

/-- Modelled from the spec: the typed storage read `unhashed::get::<V>`,
which is not under `src/`. It reads the raw bytes at the key and decodes
them with the value codec; stored bytes that fail to decode yield `none`,
exactly the branch `translate` in the source labels "fail to decode old
value". -/
def unhashedGet (decV : Bytes → Option Nat) (s : Store) (k : Bytes) : Option Nat :=
  (storeLookup s k).bind decV

/-- Modelled from the spec: the typed `unhashed::take`, which is not under
`src/`. It reads and decodes the value at the key and deletes the entry
exactly when the decoded read succeeded. -/
def unhashedTake (decV : Bytes → Option Nat) (s : Store) (k : Bytes) :
    Option Nat × Store :=
  match unhashedGet decV s k with
  | some v => (some v, storeKill s k)
  | none => (none, s)

/-- Modelled from the spec: the raw atomic append-or-create
`sp_io::storage::append`, which is external to this core: the encoded item
bytes are appended to the raw bytes stored at the key (an absent key behaves
as an empty buffer). -/
def storeAppend (s : Store) (k : Bytes) (tail : Bytes) : Store :=
  storePut s k (((storeLookup s k).getD []) ++ tail)

/-- Modelled from the spec: one slot of a `KeyGenerator` schema
(`storage/types/key.rs` is not under `src/`): a per-component hash function,
the component codec, and for reversible slots the recovery function taking
hashed bytes back to the component and the remaining bytes. -/
structure Slot where
  hash : Bytes → Bytes
  enc : Nat → Bytes
  recover : Bytes → Option (Nat × Bytes)

/-- Modelled from the spec: `KeyGenerator::final_key` /
`HasKeyPrefix::partial_key`: each slot's hash applied to its encoded
component, concatenated in slot order (truncating at the shorter list). -/
def keySfx : List Slot → List Nat → Bytes
  | sl :: sls, k :: ks => sl.hash (sl.enc k) ++ keySfx sls ks
  | _, _ => []

/-- Modelled from the spec: `ReversibleKeyGenerator::decode_final_key`:
each slot's recovery applied left to right, consuming bytes and leaving a
remainder; fails if any slot's recovery fails. -/
def decodeKeySfx : List Slot → Bytes → Option (List Nat × Bytes)
  | [], rest => some ([], rest)
  | sl :: sls, bs =>
    match sl.recover bs with
    | some (k, rest) =>
      match decodeKeySfx sls rest with
      | some (ks, rem) => some (k :: ks, rem)
      | none => none
    | none => none

/-- Embeds `prefix_hash` from the source: the hash of the module identifier
concatenated with the hash of the storage identifier. -/
def pfxHash (twox : Bytes → Bytes) (mp stp : Bytes) : Bytes :=
  twox mp ++ twox stp

/-- Embeds `storage_n_map_partial_key` from the source: the two hashed
identifiers followed by the hashed suffix of the given leading key
components. -/
def nmapPartKey (twox : Bytes → Bytes) (mp stp : Bytes) (sch : List Slot)
    (ptup : List Nat) : Bytes :=
  twox mp ++ twox stp ++ keySfx sch ptup

/-- Embeds `storage_n_map_final_key` from the source: the two hashed
identifiers followed by the hashed suffix of the full key tuple. -/
def nmapFinalKey (twox : Bytes → Bytes) (mp stp : Bytes) (sch : List Slot)
    (tup : List Nat) : Bytes :=
  twox mp ++ twox stp ++ keySfx sch tup

/-- Embeds `contains_key` from the source: raw existence test at the final
key. -/
def nmapContainsKey (twox : Bytes → Bytes) (mp stp : Bytes) (sch : List Slot)
    (tup : List Nat) (s : Store) : Bool :=
  storeExists s (nmapFinalKey twox mp stp sch tup)

/-- Embeds `get` from the source: decoded read at the final key wrapped
through `from_optional_value_to_query`. -/
def nmapGet {Q : Type} (decV : Bytes → Option Nat) (toQ : Option Nat → Q)
    (twox : Bytes → Bytes) (mp stp : Bytes) (sch : List Slot) (tup : List Nat)
    (s : Store) : Q :=
  toQ (unhashedGet decV s (nmapFinalKey twox mp stp sch tup))

/-- Embeds `try_get` from the source: the decoded read at the final key,
`Err(())` when it yields nothing (the error type in the source is the unit
type `()`). -/
def nmapTryGet (decV : Bytes → Option Nat) (twox : Bytes → Bytes)
    (mp stp : Bytes) (sch : List Slot) (tup : List Nat) (s : Store) :
    Except Unit Nat :=
  match unhashedGet decV s (nmapFinalKey twox mp stp sch tup) with
  | some v => Except.ok v
  | none => Except.error ()

/-- Embeds `take` from the source: `unhashed::take` at the final key, the
result wrapped through `from_optional_value_to_query`. -/
def nmapTake {Q : Type} (decV : Bytes → Option Nat) (toQ : Option Nat → Q)
    (twox : Bytes → Bytes) (mp stp : Bytes) (sch : List Slot) (tup : List Nat)
    (s : Store) : Q × Store :=
  let p := unhashedTake decV s (nmapFinalKey twox mp stp sch tup)
  (toQ p.1, p.2)

/-- Embeds `insert` from the source: unconditional raw overwrite of the
encoded value at the final key. -/
def nmapInsert (encV : Nat → Bytes) (twox : Bytes → Bytes) (mp stp : Bytes)
    (sch : List Slot) (tup : List Nat) (v : Nat) (s : Store) : Store :=
  storePut s (nmapFinalKey twox mp stp sch tup) (encV v)

/-- Embeds `remove` from the source: unconditional raw delete at the final
key. -/
def nmapRemove (twox : Bytes → Bytes) (mp stp : Bytes) (sch : List Slot)
    (tup : List Nat) (s : Store) : Store :=
  storeKill s (nmapFinalKey twox mp stp sch tup)

/-- Embeds `swap` from the source: both final keys are resolved first (the
two sides may use different key schemas, `K` and `KOther`, under the same
map identifiers), then the raw bytes are exchanged, absence on one side
becoming deletion of the other side's destination. -/
def nmapSwap (twox : Bytes → Bytes) (mp stp : Bytes) (sch1 : List Slot)
    (tup1 : List Nat) (sch2 : List Slot) (tup2 : List Nat) (s : Store) :
    Store :=
  let fkx := nmapFinalKey twox mp stp sch1 tup1
  let fky := nmapFinalKey twox mp stp sch2 tup2
  let v1 := storeLookup s fkx
  let s1 :=
    match storeLookup s fky with
    | some val => storePut s fkx val
    | none => storeKill s fkx
  match v1 with
  | some val => storePut s1 fky val
  | none => storeKill s1 fky

/-- Embeds `try_mutate` from the source: decoded read at the final key,
wrapped to a query, passed to the closure; on `Ok` the possibly-changed
query is converted back to an optional value and written (overwrite) or
deleted; on `Err` nothing is written. The closure is modelled as returning
both its result and the final state of its by-reference query argument. -/
def nmapTryMutate {Q E R : Type} (decV : Bytes → Option Nat)
    (encV : Nat → Bytes) (toQ : Option Nat → Q) (fromQ : Q → Option Nat)
    (twox : Bytes → Bytes) (mp stp : Bytes) (sch : List Slot) (tup : List Nat)
    (f : Q → Except E R × Q) (s : Store) : Except E R × Store :=
  let fk := nmapFinalKey twox mp stp sch tup
  let val := toQ (unhashedGet decV s fk)
  let p := f val
  match p.1 with
  | Except.ok _ =>
    match fromQ p.2 with
    | some v => (p.1, storePut s fk (encV v))
    | none => (p.1, storeKill s fk)
  | Except.error _ => (p.1, s)

/-- The closure wrapper used by `mutate` in the source: `|v| Ok(f(v))` with
the uninhabited error type `Never`. -/
def okWrap {Q R : Type} (f : Q → R × Q) : Q → Except Empty R × Q :=
  fun q => (Except.ok (f q).1, (f q).2)

/-- Embeds `mutate` from the source: `try_mutate` with the `Ok`-wrapped
closure over the uninhabited error type; the `expect` on the `Err` branch is
unreachable. -/
def nmapMutate {Q R : Type} (decV : Bytes → Option Nat) (encV : Nat → Bytes)
    (toQ : Option Nat → Q) (fromQ : Q → Option Nat) (twox : Bytes → Bytes)
    (mp stp : Bytes) (sch : List Slot) (tup : List Nat) (f : Q → R × Q)
    (s : Store) : R × Store :=
  match nmapTryMutate decV encV toQ fromQ twox mp stp sch tup (okWrap f) s with
  | (Except.ok r, s1) => (r, s1)
  | (Except.error e, _) => e.elim

/-- Embeds `try_mutate_exists` from the source: like `try_mutate` but over
the optional decoded value directly, bypassing the query wrapper. -/
def nmapTryMutateExists {E R : Type} (decV : Bytes → Option Nat)
    (encV : Nat → Bytes) (twox : Bytes → Bytes) (mp stp : Bytes)
    (sch : List Slot) (tup : List Nat)
    (f : Option Nat → Except E R × Option Nat) (s : Store) :
    Except E R × Store :=
  let fk := nmapFinalKey twox mp stp sch tup
  let val := unhashedGet decV s fk
  let p := f val
  match p.1 with
  | Except.ok _ =>
    match p.2 with
    | some v => (p.1, storePut s fk (encV v))
    | none => (p.1, storeKill s fk)
  | Except.error _ => (p.1, s)

/-- The closure wrapper used by `mutate_exists` in the source. -/
def okWrapE {R : Type} (f : Option Nat → R × Option Nat) :
    Option Nat → Except Empty R × Option Nat :=
  fun v => (Except.ok (f v).1, (f v).2)

/-- Embeds `mutate_exists` from the source: `try_mutate_exists` with the
`Ok`-wrapped closure over the uninhabited error type. -/
def nmapMutateExists {R : Type} (decV : Bytes → Option Nat)
    (encV : Nat → Bytes) (twox : Bytes → Bytes) (mp stp : Bytes)
    (sch : List Slot) (tup : List Nat) (f : Option Nat → R × Option Nat)
    (s : Store) : R × Store :=
  match nmapTryMutateExists decV encV twox mp stp sch tup (okWrapE f) s with
  | (Except.ok r, s1) => (r, s1)
  | (Except.error e, _) => e.elim

/-- Embeds `append` from the source: the raw atomic append of the encoded
item at the final key. -/
def nmapAppend (twox : Bytes → Bytes) (mp stp : Bytes) (sch : List Slot)
    (tup : List Nat) (itemBytes : Bytes) (s : Store) : Store :=
  storeAppend s (nmapFinalKey twox mp stp sch tup) itemBytes

/-- Embeds `migrate_keys` from the source: the legacy final key is the same
hashed identifier pair followed by `migrate_key` of the tuple under the
caller-supplied alternate hashers (modelled, like the schema itself, as an
alternate slot list applied to the same tuple); `unhashed::take` at the
legacy key, and on success the value is re-written under the current final
key and returned. -/
def nmapMigrateKeys (decV : Bytes → Option Nat) (encV : Nat → Bytes)
    (twox : Bytes → Bytes) (mp stp : Bytes) (sch schOld : List Slot)
    (tup : List Nat) (s : Store) : Option Nat × Store :=
  let oldKey := twox mp ++ twox stp ++ keySfx schOld tup
  match unhashedTake decV s oldKey with
  | (some value, s1) =>
    (some value, storePut s1 (nmapFinalKey twox mp stp sch tup) (encV value))
  | (none, s1) => (none, s1)

/-- Modelled from the spec: the `PrefixIterator` cursor state
(`storage/mod.rs` is not under `src/`): the fixed byte namespace, the
cursor (initially equal to the namespace), and the drain flag. -/
structure PfxIter where
  pfx : Bytes
  prevKey : Bytes
  drain : Bool

/-- Modelled from the spec: running a `PrefixIterator` to exhaustion
(`Iterator for PrefixIterator` in `storage/mod.rs` is not under `src/`).
Each step takes the store's next key after the cursor; a missing key or one
that leaves the namespace ends the iteration; otherwise the cursor advances,
the raw value is read and passed with the key suffix to the decode closure;
a decoded entry is yielded (and, in drain mode, deleted immediately after
being yielded); an entry the closure rejects is skipped. Fuel bounds the
number of steps. -/
def pfxIterLoop {α : Type} (dec : Bytes → Bytes → Option α) :
    Nat → Store → PfxIter → List α × Store
  | 0, s, _ => ([], s)
  | fuel + 1, s, it =>
    match storeNextKey s it.prevKey with
    | none => ([], s)
    | some k =>
      if it.pfx.isPrefixOf k then
        match storeLookup s k with
        | none => pfxIterLoop dec fuel s { it with prevKey := k }
        | some raw =>
          match dec (k.drop it.pfx.length) raw with
          | some item =>
            let s1 := if it.drain then storeKill s k else s
            let rest := pfxIterLoop dec fuel s1 { it with prevKey := k }
            (item :: rest.1, rest.2)
          | none => pfxIterLoop dec fuel s { it with prevKey := k }
      else ([], s)

/-- Embeds the decode closure of `iter`: the reversible key decode of the
raw key without the namespace, paired with the decoded value; either
failure rejects the entry. -/
def iterClosure (sch : List Slot) (decV : Bytes → Option Nat)
    (rk rv : Bytes) : Option (List Nat × Nat) :=
  match decodeKeySfx sch rk with
  | some (tup, _) =>
    match decV rv with
    | some v => some (tup, v)
    | none => none
  | none => none

/-- Embeds `iter` from the source: a fresh iterator whose namespace and
cursor are both `prefix_hash`, with drain off. -/
def nmapIterState (twox : Bytes → Bytes) (mp stp : Bytes) : PfxIter :=
  { pfx := pfxHash twox mp stp, prevKey := pfxHash twox mp stp,
    drain := false }

/-- Embeds `drain` from the source: the `iter` iterator with the drain flag
set. -/
def nmapDrainState (twox : Bytes → Bytes) (mp stp : Bytes) : PfxIter :=
  { nmapIterState twox mp stp with drain := true }

/-- Running `iter` to exhaustion over the store. -/
def nmapIterRun (sch : List Slot) (decV : Bytes → Option Nat)
    (twox : Bytes → Bytes) (mp stp : Bytes) (fuel : Nat) (s : Store) :
    List (List Nat × Nat) × Store :=
  pfxIterLoop (iterClosure sch decV) fuel s (nmapIterState twox mp stp)

/-- Running `drain` to exhaustion over the store. -/
def nmapDrainRun (sch : List Slot) (decV : Bytes → Option Nat)
    (twox : Bytes → Bytes) (mp stp : Bytes) (fuel : Nat) (s : Store) :
    List (List Nat × Nat) × Store :=
  pfxIterLoop (iterClosure sch decV) fuel s (nmapDrainState twox mp stp)

/-- Embeds the `translate` loop body from the source, acting on one raw
entry: an old value that fails to decode is skipped (entry kept verbatim);
a key suffix that fails to decode is skipped; otherwise `f` is applied and
`Some` overwrites the value in place while `None` deletes the entry. -/
def translateStep (decO : Bytes → Option Nat) (encV : Nat → Bytes)
    (pfxH : Bytes) (sch : List Slot) (f : List Nat → Nat → Option Nat)
    (e : Bytes × Bytes) : Option (Bytes × Bytes) :=
  match decO e.2 with
  | none => some e
  | some value =>
    match decodeKeySfx sch (e.1.drop pfxH.length) with
    | none => some e
    | some (fk, _) =>
      match f fk value with
      | some nv => some (e.1, encV nv)
      | none => none

/-- Embeds the `translate` while-loop from the source: walk `next_key` from
the cursor while the keys stay under the namespace; a value that fails the
old decode, or a key suffix that fails to decode, logs and continues;
otherwise `f`'s `Some` overwrites in place and `None` deletes. Fuel bounds
the number of steps. -/
def translateLoop (decO : Bytes → Option Nat) (encV : Nat → Bytes)
    (pfxH : Bytes) (sch : List Slot) (f : List Nat → Nat → Option Nat) :
    Nat → Store → Bytes → Store
  | 0, s, _ => s
  | fuel + 1, s, prev =>
    match storeNextKey s prev with
    | none => s
    | some next =>
      if pfxH.isPrefixOf next then
        let s1 :=
          match unhashedGet decO s next with
          | none => s
          | some value =>
            match decodeKeySfx sch (next.drop pfxH.length) with
            | none => s
            | some (fk, _) =>
              match f fk value with
              | some nv => storePut s next (encV nv)
              | none => storeKill s next
        translateLoop decO encV pfxH sch f fuel s1 next
      else s

/-- Embeds `translate` from the source: the loop started with both the
namespace and the cursor at `prefix_hash`. -/
def nmapTranslate (decO : Bytes → Option Nat) (encV : Nat → Bytes)
    (twox : Bytes → Bytes) (mp stp : Bytes) (sch : List Slot)
    (f : List Nat → Nat → Option Nat) (fuel : Nat) (s : Store) : Store :=
  translateLoop decO encV (pfxHash twox mp stp) sch f fuel s
    (pfxHash twox mp stp)

/-- Concrete mock of the external `Twox128` identifier hasher, for witness
instances. -/
def mockTwox : Bytes → Bytes := fun _ => [7]

/-- Concrete mock value codec for witness instances: a value `n` is stored
as the single byte `[n]`; anything else fails to decode. -/
def mockDecV : Bytes → Option Nat
  | [n] => some n
  | _ => none

/-- Concrete mock value encoder for witness instances. -/
def mockEncV : Nat → Bytes := fun n => [n]

/-- Concrete mock reversible slot for witness instances: digest byte `9`
followed by the one-byte component encoding. -/
def mockSlot : Slot where
  hash := fun bs => 9 :: bs
  enc := fun n => [n]
  recover := fun bs =>
    match bs with
    | 9 :: n :: rest => some (n, rest)
    | _ => none

/-- A second mock slot with a different digest byte, used as an alternate
(legacy) hasher in migration witnesses. -/
def mockSlotB : Slot where
  hash := fun bs => 8 :: bs
  enc := fun n => [n]
  recover := fun bs =>
    match bs with
    | 8 :: n :: rest => some (n, rest)
    | _ => none

theorem bytesLt_irrefl (a : Bytes) : bytesLt a a = false := by
  induction a with
  | nil => rfl
  | cons x xs ih => simp [bytesLt, ih]

theorem bytesLt_trans {a b c : Bytes} (h1 : bytesLt a b = true)
    (h2 : bytesLt b c = true) : bytesLt a c = true := by
  induction a generalizing b c with
  | nil =>
    cases c with
    | nil => cases b <;> simp_all [bytesLt]
    | cons z zs => simp [bytesLt]
  | cons x xs ih =>
    cases b with
    | nil => simp [bytesLt] at h1
    | cons y ys =>
      cases c with
      | nil => simp [bytesLt] at h2
      | cons z zs =>
        simp only [bytesLt] at h1 h2 ⊢
        split_ifs at h1 h2 ⊢ with hxy hyx hyz hzy hxz hzx
        all_goals first
          | rfl
          | omega
          | (exact ih h1 h2)

theorem bytesLt_asymm {a b : Bytes} (h : bytesLt a b = true) :
    bytesLt b a = false := by
  by_contra hc
  have hba : bytesLt b a = true := by
    cases hba : bytesLt b a with
    | false => exact absurd hba hc
    | true => rfl
  have := bytesLt_trans h hba
  rw [bytesLt_irrefl] at this
  exact Bool.false_ne_true this

theorem ne_of_lt_gap {c k x : Bytes} (hk : bytesLt c k = true)
    (hx : bytesLt c x = false) : x ≠ k := by
  intro h
  rw [h, hk] at hx
  simp at hx

theorem lt_gap_false {c k x : Bytes} (hk : bytesLt c k = true)
    (hx : bytesLt c x = false) : bytesLt k x = false := by
  cases h : bytesLt k x with
  | false => rfl
  | true =>
    have := bytesLt_trans hk h
    rw [this] at hx
    exact absurd hx (by simp)

theorem bytesLt_append {p x : Bytes} (hx : x ≠ []) :
    bytesLt p (p ++ x) = true := by
  induction p with
  | nil => cases x with | nil => exact absurd rfl hx | cons a as => rfl
  | cons a as ih => simpa [bytesLt] using ih

theorem storeLookup_append {A B : Store} {k : Bytes}
    (h : ∀ e ∈ A, e.1 ≠ k) : storeLookup (A ++ B) k = storeLookup B k := by
  induction A with
  | nil => rfl
  | cons e es ih =>
    have he : e.1 ≠ k := h e (by simp)
    simp only [List.cons_append, storeLookup, if_neg he]
    exact ih fun x hx => h x (by simp [hx])

theorem storeLookup_eq_none {s : Store} {k : Bytes}
    (h : storeLookup s k = none) : ∀ e ∈ s, e.1 ≠ k := by
  induction s with
  | nil => intro e he; cases he
  | cons e es ih =>
    intro x hx
    by_cases hek : e.1 = k
    · simp [storeLookup, hek] at h
    · simp only [storeLookup, if_neg hek] at h
      rcases List.mem_cons.mp hx with hx1 | hx1
      · rw [hx1]; exact hek
      · exact ih h x hx1

theorem storeNextKey_append {A B : Store} {c : Bytes}
    (h : ∀ e ∈ A, bytesLt c e.1 = false) :
    storeNextKey (A ++ B) c = storeNextKey B c := by
  induction A with
  | nil => rfl
  | cons e es ih =>
    have he := h e (by simp)
    simp only [List.cons_append, storeNextKey, he]
    simp only [Bool.false_eq_true, if_false]
    exact ih fun x hx => h x (by simp [hx])

theorem storeKill_append {A B : Store} {k : Bytes} (h : ∀ e ∈ A, e.1 ≠ k) :
    storeKill (A ++ B) k = A ++ storeKill B k := by
  induction A with
  | nil => rfl
  | cons e es ih =>
    have he : e.1 ≠ k := h e (by simp)
    have ih' := ih fun x hx => h x (by simp [hx])
    simp [storeKill, he, ih']

theorem storeKill_of_ne {B : Store} {k : Bytes} (h : ∀ e ∈ B, e.1 ≠ k) :
    storeKill B k = B := by
  induction B with
  | nil => rfl
  | cons e es ih =>
    have he : e.1 ≠ k := h e (by simp)
    simp only [storeKill, if_neg he]
    rw [ih fun x hx => h x (by simp [hx])]

theorem storePut_append {A B : Store} {k v : Bytes}
    (hne : ∀ e ∈ A, e.1 ≠ k) (hlt : ∀ e ∈ A, bytesLt k e.1 = false) :
    storePut (A ++ B) k v = A ++ storePut B k v := by
  induction A with
  | nil => rfl
  | cons e es ih =>
    have h1 : e.1 ≠ k := hne e (by simp)
    have h2 := hlt e (by simp)
    have ih' := ih (fun x hx => hne x (by simp [hx]))
      (fun x hx => hlt x (by simp [hx]))
    simp [storePut, h1, h2, ih']

theorem storeLookup_put_self (s : Store) (k v : Bytes) :
    storeLookup (storePut s k v) k = some v := by
  induction s with
  | nil => simp [storePut, storeLookup]
  | cons e es ih =>
    by_cases hek : e.1 = k
    · simp [storePut, hek, storeLookup]
    · simp only [storePut, if_neg hek]
      by_cases hlt : bytesLt k e.1 = true
      · simp [hlt, storeLookup]
      · simp only [hlt, if_false, storeLookup, if_neg hek]
        exact ih

theorem storeLookup_put_other {k k' : Bytes} (s : Store) (v : Bytes)
    (h : k' ≠ k) : storeLookup (storePut s k v) k' = storeLookup s k' := by
  have hkk : ¬(k = k') := Ne.symm h
  induction s with
  | nil => simp [storePut, storeLookup, hkk]
  | cons e es ih =>
    by_cases hek : e.1 = k
    · have h2 : ¬(e.1 = k') := by rw [hek]; exact hkk
      simp [storePut, hek, storeLookup, hkk, h2]
    · simp only [storePut, if_neg hek]
      by_cases hlt : bytesLt k e.1 = true
      · simp [hlt, storeLookup, hkk]
      · simp only [hlt, if_false, storeLookup]
        by_cases hek' : e.1 = k'
        · simp [hek']
        · simp [hek', ih]

theorem storeLookup_kill_self (s : Store) (k : Bytes) :
    storeLookup (storeKill s k) k = none := by
  induction s with
  | nil => rfl
  | cons e es ih =>
    by_cases hek : e.1 = k
    · simpa [storeKill, hek] using ih
    · simpa [storeKill, hek, storeLookup] using ih

theorem storeLookup_kill_other {k k' : Bytes} (s : Store) (h : k' ≠ k) :
    storeLookup (storeKill s k) k' = storeLookup s k' := by
  have hkk : ¬(k = k') := Ne.symm h
  induction s with
  | nil => rfl
  | cons e es ih =>
    by_cases hek : e.1 = k
    · have h2 : ¬(e.1 = k') := by rw [hek]; exact hkk
      simp [storeKill, storeLookup, hek, h2, hkk, h, ih]
    · by_cases hek' : e.1 = k'
      · simp [storeKill, storeLookup, hek, hek', h, hkk, ih]
      · simp [storeKill, storeLookup, hek, hek', h, hkk, ih]

theorem storeKill_of_lookup_none {s : Store} {k : Bytes}
    (h : storeLookup s k = none) : storeKill s k = s :=
  storeKill_of_ne (storeLookup_eq_none h)

theorem ne_key_of_entryLt {m : Bytes × Bytes} {l : Store}
    (h : ∀ e ∈ l, entryLt m e) : ∀ e ∈ l, e.1 ≠ m.1 := by
  intro e he heq
  have hlt := h e he
  rw [entryLt, heq, bytesLt_irrefl] at hlt
  simp at hlt

/-- Running the iterator over a store split as `A ++ M ++ R`: entries of `A`
sit at or before the cursor, entries of `M` are under the namespace and
after the cursor, and `R` starts (if nonempty) with the first key past the
namespace. The run yields the decoded entries of `M` in order; without
drain the store is untouched, with drain exactly the yielded entries are
deleted. -/
theorem pfxIterLoop_split {α : Type} (dec : Bytes → Bytes → Option α)
    (pfx : Bytes) (dr : Bool) :
    ∀ (M : Store) (fuel : Nat) (A R : Store) (c : Bytes),
    M.length < fuel →
    (∀ e ∈ A, bytesLt c e.1 = false) →
    (∀ e ∈ M ++ R, bytesLt c e.1 = true) →
    List.Pairwise entryLt (M ++ R) →
    (∀ e ∈ M, pfx.isPrefixOf e.1 = true) →
    (∀ e ∈ R.take 1, pfx.isPrefixOf e.1 = false) →
    pfxIterLoop dec fuel (A ++ (M ++ R)) ⟨pfx, c, dr⟩ =
      (M.filterMap (fun e => dec (e.1.drop pfx.length) e.2),
       if dr then
         A ++ (M.filter (fun e => (dec (e.1.drop pfx.length) e.2).isNone) ++ R)
       else A ++ (M ++ R)) := by
  intro M
  induction M with
  | nil =>
    intro fuel A R c hfuel hA hc _hpw _hM hR
    cases fuel with
    | zero => omega
    | succ fl =>
      simp only [List.nil_append]
      simp only [pfxIterLoop]
      rw [storeNextKey_append hA]
      cases R with
      | nil => simp [storeNextKey]
      | cons r R' =>
        have hcr : bytesLt c r.1 = true := hc r (by simp)
        have hrp : pfx.isPrefixOf r.1 = false := hR r (by simp)
        simp [storeNextKey, hcr, hrp]
  | cons m M' ih =>
    intro fuel A R c hfuel hA hc hpw hM hR
    cases fuel with
    | zero => omega
    | succ fl =>
      have hcm : bytesLt c m.1 = true := hc m (by simp)
      have hAne : ∀ e ∈ A, e.1 ≠ m.1 := fun e he => ne_of_lt_gap hcm (hA e he)
      have hpw2 : List.Pairwise entryLt (m :: (M' ++ R)) := by
        rw [List.cons_append] at hpw; exact hpw
      have hp := List.pairwise_cons.mp hpw2
      have hgt : ∀ e ∈ M' ++ R, bytesLt m.1 e.1 = true :=
        fun e he => hp.1 e he
      have hmp : pfx.isPrefixOf m.1 = true := hM m (by simp)
      have hfl : M'.length < fl := by simpa using hfuel
      have hA' : ∀ e ∈ A, bytesLt m.1 e.1 = false :=
        fun e he => lt_gap_false hcm (hA e he)
      have hM' : ∀ e ∈ M', pfx.isPrefixOf e.1 = true :=
        fun e he => hM e (by simp [he])
      have htail_ne : ∀ e ∈ M' ++ R, e.1 ≠ m.1 := ne_key_of_entryLt hp.1
      simp only [pfxIterLoop]
      have hnk : storeNextKey (A ++ (m :: M' ++ R)) c = some m.1 := by
        rw [show (m :: M' ++ R) = (m :: (M' ++ R)) by simp] at *
        rw [storeNextKey_append hA]
        simp [storeNextKey, hcm]
      have hlk : storeLookup (A ++ (m :: M' ++ R)) m.1 = some m.2 := by
        rw [show (m :: M' ++ R) = (m :: (M' ++ R)) by simp] at *
        rw [storeLookup_append hAne]
        simp [storeLookup]
      rw [hnk]
      simp only [hmp, if_true, hlk]
      cases hdec : dec (m.1.drop pfx.length) m.2 with
      | some item =>
        simp only [List.filterMap_cons, hdec, List.filter_cons,
          Option.isNone_some, Bool.false_eq_true, if_false]
        cases dr with
        | true =>
          have hkill : storeKill (A ++ (m :: M' ++ R)) m.1 = A ++ (M' ++ R) := by
            rw [show (m :: M' ++ R) = (m :: (M' ++ R)) by simp]
            rw [storeKill_append hAne]
            simp [storeKill, storeKill_of_ne htail_ne]
          simp only [if_true, hkill]
          have := ih fl A R m.1 hfl hA' hgt hp.2 hM' hR
          simp only [this]
          simp
        | false =>
          simp only [Bool.false_eq_true, if_false]
          have hre : A ++ (m :: M' ++ R) = (A ++ [m]) ++ (M' ++ R) := by simp
          have hA2 : ∀ e ∈ A ++ [m], bytesLt m.1 e.1 = false := by
            intro e he
            rcases List.mem_append.mp he with h1 | h1
            · exact hA' e h1
            · rcases List.mem_singleton.mp h1 with rfl
              exact bytesLt_irrefl _
          rw [hre]
          have := ih fl (A ++ [m]) R m.1 hfl hA2 hgt hp.2 hM' hR
          simp only [this]
          simp
      | none =>
        simp only [List.filterMap_cons, hdec, List.filter_cons,
          Option.isNone_none, if_true]
        have hre : A ++ (m :: M' ++ R) = (A ++ [m]) ++ (M' ++ R) := by simp
        have hA2 : ∀ e ∈ A ++ [m], bytesLt m.1 e.1 = false := by
          intro e he
          rcases List.mem_append.mp he with h1 | h1
          · exact hA' e h1
          · rcases List.mem_singleton.mp h1 with rfl
            exact bytesLt_irrefl _
        rw [hre]
        have := ih fl (A ++ [m]) R m.1 hfl hA2 hgt hp.2 hM' hR
        simp only [this]
        cases dr <;> simp

/-- Running the `translate` loop over a store split as `A ++ M ++ R` (same
splitting conditions as for the iterator): every entry of `M` is visited
once, in order, and rewritten according to the per-entry step; `A` and `R`
are untouched. -/
theorem translateLoop_split (decO : Bytes → Option Nat) (encV : Nat → Bytes)
    (pfx : Bytes) (sch : List Slot) (f : List Nat → Nat → Option Nat) :
    ∀ (M : Store) (fuel : Nat) (A R : Store) (c : Bytes),
    M.length < fuel →
    (∀ e ∈ A, bytesLt c e.1 = false) →
    (∀ e ∈ M ++ R, bytesLt c e.1 = true) →
    List.Pairwise entryLt (M ++ R) →
    (∀ e ∈ M, pfx.isPrefixOf e.1 = true) →
    (∀ e ∈ R.take 1, pfx.isPrefixOf e.1 = false) →
    translateLoop decO encV pfx sch f fuel (A ++ (M ++ R)) c =
      A ++ (M.filterMap (translateStep decO encV pfx sch f) ++ R) := by
  intro M
  induction M with
  | nil =>
    intro fuel A R c hfuel hA hc _hpw _hM hR
    cases fuel with
    | zero => omega
    | succ fl =>
      simp only [List.nil_append]
      simp only [translateLoop]
      rw [storeNextKey_append hA]
      cases R with
      | nil => simp [storeNextKey]
      | cons r R' =>
        have hcr : bytesLt c r.1 = true := hc r (by simp)
        have hrp : pfx.isPrefixOf r.1 = false := hR r (by simp)
        simp [storeNextKey, hcr, hrp]
  | cons m M' ih =>
    intro fuel A R c hfuel hA hc hpw hM hR
    cases fuel with
    | zero => omega
    | succ fl =>
      have hcm : bytesLt c m.1 = true := hc m (by simp)
      have hAne : ∀ e ∈ A, e.1 ≠ m.1 := fun e he => ne_of_lt_gap hcm (hA e he)
      have hpw2 : List.Pairwise entryLt (m :: (M' ++ R)) := by
        rw [List.cons_append] at hpw; exact hpw
      have hp := List.pairwise_cons.mp hpw2
      have hgt : ∀ e ∈ M' ++ R, bytesLt m.1 e.1 = true :=
        fun e he => hp.1 e he
      have hmp : pfx.isPrefixOf m.1 = true := hM m (by simp)
      have hfl : M'.length < fl := by simpa using hfuel
      have hA' : ∀ e ∈ A, bytesLt m.1 e.1 = false :=
        fun e he => lt_gap_false hcm (hA e he)
      have hM' : ∀ e ∈ M', pfx.isPrefixOf e.1 = true :=
        fun e he => hM e (by simp [he])
      have htail_ne : ∀ e ∈ M' ++ R, e.1 ≠ m.1 := ne_key_of_entryLt hp.1
      simp only [translateLoop, List.cons_append]
      have hnk : storeNextKey (A ++ (m :: (M' ++ R))) c = some m.1 := by
        rw [storeNextKey_append hA]
        simp [storeNextKey, hcm]
      have hlk : storeLookup (A ++ (m :: (M' ++ R))) m.1 = some m.2 := by
        rw [storeLookup_append hAne]
        simp [storeLookup]
      rw [hnk]
      simp only [hmp, if_true, unhashedGet, hlk, Option.some_bind]
      have hA2 : ∀ e ∈ A ++ [m], bytesLt m.1 e.1 = false := by
        intro e he
        rcases List.mem_append.mp he with h1 | h1
        · exact hA' e h1
        · rcases List.mem_singleton.mp h1 with rfl
          exact bytesLt_irrefl _
      have hA2v : ∀ (vv : Bytes), ∀ e ∈ A ++ [(m.1, vv)], bytesLt m.1 e.1 = false := by
        intro vv e he
        rcases List.mem_append.mp he with h1 | h1
        · exact hA' e h1
        · rcases List.mem_singleton.mp h1 with rfl
          exact bytesLt_irrefl _
      cases hdv : decO m.2 with
      | none =>
        have hres := ih fl (A ++ [m]) R m.1 hfl hA2 hgt hp.2 hM' hR
        simpa [translateStep, hdv] using hres
      | some value =>
        cases hdk : decodeKeySfx sch (m.1.drop pfx.length) with
        | none =>
          have hres := ih fl (A ++ [m]) R m.1 hfl hA2 hgt hp.2 hM' hR
          simpa [translateStep, hdv, hdk] using hres
        | some p =>
          obtain ⟨fk1, rest1⟩ := p
          cases hf : f fk1 value with
          | some nv =>
            have hput : storePut (A ++ (m :: (M' ++ R))) m.1 (encV nv) =
                A ++ ((m.1, encV nv) :: (M' ++ R)) := by
              rw [storePut_append hAne hA']
              simp [storePut]
            have hres := ih fl (A ++ [(m.1, encV nv)]) R m.1 hfl
              (hA2v (encV nv)) hgt hp.2 hM' hR
            simpa [translateStep, hdv, hdk, hf, hput] using hres
          | none =>
            have hkill : storeKill (A ++ (m :: (M' ++ R))) m.1 =
                A ++ (M' ++ R) := by
              rw [storeKill_append hAne]
              simp [storeKill, storeKill_of_ne htail_ne]
            have hres := ih fl A R m.1 hfl hA' hgt hp.2 hM' hR
            simpa [translateStep, hdv, hdk, hf, hkill] using hres

theorem keySfx_take (sch : List Slot) :
    ∀ (tup : List Nat) (M : Nat),
    keySfx sch (tup.take M) <+: keySfx sch tup := by
  induction sch with
  | nil => intro tup M; cases tup <;> cases M <;> simp [keySfx]
  | cons sl sls ih =>
    intro tup M
    cases tup with
    | nil => cases M <;> simp [keySfx]
    | cons k ks =>
      cases M with
      | zero => simp [keySfx]
      | succ M1 =>
        simp only [List.take_succ_cons, keySfx]
        obtain ⟨t, ht⟩ := ih ks M1
        exact ⟨t, by rw [List.append_assoc, ht]⟩

theorem filterMap_id_of_some {β : Type} {l : List β} {h : β → Option β}
    (H : ∀ p ∈ l, h p = some p) : l.filterMap h = l := by
  induction l with
  | nil => rfl
  | cons x xs ih =>
    have hx := H x (by simp)
    simp [List.filterMap_cons, hx, ih fun p hp => H p (by simp [hp])]

/-- Claim C1: for every key tuple and every strict prefix length M < N, the
full key of `storage_n_map_final_key` starts with the bytes of
`storage_n_map_partial_key` for the first M components, which in turn
starts with the bytes of `prefix_hash()`, itself the hash of the module
identifier concatenated with the hash of the storage identifier. -/
theorem nmap_key_hierarchy (twox : Bytes → Bytes) (mp stp : Bytes)
    (sch : List Slot) (tup : List Nat) (M : Nat)
    (hM : M < sch.length) (hlen : tup.length = sch.length) :
    pfxHash twox mp stp = twox mp ++ twox stp ∧
    pfxHash twox mp stp <+: nmapPartKey twox mp stp sch (tup.take M) ∧
    nmapPartKey twox mp stp sch (tup.take M) <+:
      nmapFinalKey twox mp stp sch tup := by
  refine ⟨rfl, ⟨keySfx sch (tup.take M), by simp [pfxHash, nmapPartKey]⟩, ?_⟩
  obtain ⟨t, ht⟩ := keySfx_take sch tup M
  exact ⟨t, by simp [nmapPartKey, nmapFinalKey, List.append_assoc, ht]⟩

/-- Witness for C1 at a concrete two-slot schema and tuple with M = 1. -/
theorem nmap_key_hierarchy_w :
    1 < ([mockSlot, mockSlotB] : List Slot).length ∧
    ([0, 1] : List Nat).length = ([mockSlot, mockSlotB] : List Slot).length ∧
    (pfxHash mockTwox [1] [2] = mockTwox [1] ++ mockTwox [2] ∧
     pfxHash mockTwox [1] [2] <+:
       nmapPartKey mockTwox [1] [2] [mockSlot, mockSlotB]
         (([0, 1] : List Nat).take 1) ∧
     nmapPartKey mockTwox [1] [2] [mockSlot, mockSlotB]
         (([0, 1] : List Nat).take 1) <+:
       nmapFinalKey mockTwox [1] [2] [mockSlot, mockSlotB] [0, 1]) :=
  ⟨by decide, by decide,
    nmap_key_hierarchy mockTwox [1] [2] [mockSlot, mockSlotB] [0, 1] 1
      (by decide) (by decide)⟩

theorem nmapTryMutate_eq {Q E R : Type} (decV : Bytes → Option Nat)
    (encV : Nat → Bytes) (toQ : Option Nat → Q) (fromQ : Q → Option Nat)
    (twox : Bytes → Bytes) (mp stp : Bytes) (sch : List Slot) (tup : List Nat)
    (f : Q → Except E R × Q) (s : Store) :
    nmapTryMutate decV encV toQ fromQ twox mp stp sch tup f s =
      (let fk := nmapFinalKey twox mp stp sch tup
       let p := f (toQ (unhashedGet decV s fk))
       match p.1 with
       | Except.ok _ =>
         match fromQ p.2 with
         | some v => (p.1, storePut s fk (encV v))
         | none => (p.1, storeKill s fk)
       | Except.error _ => (p.1, s)) := rfl

theorem nmapMutate_eq {Q R : Type} (decV : Bytes → Option Nat)
    (encV : Nat → Bytes) (toQ : Option Nat → Q) (fromQ : Q → Option Nat)
    (twox : Bytes → Bytes) (mp stp : Bytes) (sch : List Slot) (tup : List Nat)
    (f : Q → R × Q) (s : Store) :
    nmapMutate decV encV toQ fromQ twox mp stp sch tup f s =
      (let fk := nmapFinalKey twox mp stp sch tup
       let p := f (toQ (unhashedGet decV s fk))
       match fromQ p.2 with
       | some v => (p.1, storePut s fk (encV v))
       | none => (p.1, storeKill s fk)) := by
  simp only [nmapMutate, nmapTryMutate, okWrap]
  cases hq : fromQ (f (toQ (unhashedGet decV s
      (nmapFinalKey twox mp stp sch tup)))).2 <;> simp [hq]

theorem nmapTryMutateExists_eq {E R : Type} (decV : Bytes → Option Nat)
    (encV : Nat → Bytes) (twox : Bytes → Bytes) (mp stp : Bytes)
    (sch : List Slot) (tup : List Nat)
    (f : Option Nat → Except E R × Option Nat) (s : Store) :
    nmapTryMutateExists decV encV twox mp stp sch tup f s =
      (let fk := nmapFinalKey twox mp stp sch tup
       let p := f (unhashedGet decV s fk)
       match p.1 with
       | Except.ok _ =>
         match p.2 with
         | some v => (p.1, storePut s fk (encV v))
         | none => (p.1, storeKill s fk)
       | Except.error _ => (p.1, s)) := rfl

theorem nmapMutateExists_eq {R : Type} (decV : Bytes → Option Nat)
    (encV : Nat → Bytes) (twox : Bytes → Bytes) (mp stp : Bytes)
    (sch : List Slot) (tup : List Nat) (f : Option Nat → R × Option Nat)
    (s : Store) :
    nmapMutateExists decV encV twox mp stp sch tup f s =
      (let fk := nmapFinalKey twox mp stp sch tup
       let p := f (unhashedGet decV s fk)
       match p.2 with
       | some v => (p.1, storePut s fk (encV v))
       | none => (p.1, storeKill s fk)) := by
  simp only [nmapMutateExists, nmapTryMutateExists, okWrapE]
  cases hq : (f (unhashedGet decV s
      (nmapFinalKey twox mp stp sch tup))).2 <;> simp [hq]

/-- Claim C3: `try_mutate` reads the decoded optional value at the final
key, converts it to a query and applies the closure; the call returns the
closure's result; on `Err` no write occurs and the store is exactly as
before, even though the closure's in-memory query argument may have been
changed; on `Ok` the optional value re-derived from the possibly-changed
query is written back, `some` overwriting the final key and `none` deleting
it. The same `Err`-leaves-the-store-unchanged guarantee holds for
`try_mutate_exists`. -/
theorem nmap_try_mutate_atomic {Q E R : Type} (decV : Bytes → Option Nat)
    (encV : Nat → Bytes) (toQ : Option Nat → Q) (fromQ : Q → Option Nat)
    (twox : Bytes → Bytes) (mp stp : Bytes) (sch : List Slot) (tup : List Nat)
    (f : Q → Except E R × Q) (s : Store) :
    (nmapTryMutate decV encV toQ fromQ twox mp stp sch tup f s).1 =
      (f (toQ (unhashedGet decV s (nmapFinalKey twox mp stp sch tup)))).1 ∧
    (∀ e : E,
      (f (toQ (unhashedGet decV s (nmapFinalKey twox mp stp sch tup)))).1 =
        Except.error e →
      (nmapTryMutate decV encV toQ fromQ twox mp stp sch tup f s).2 = s) ∧
    (∀ r : R,
      (f (toQ (unhashedGet decV s (nmapFinalKey twox mp stp sch tup)))).1 =
        Except.ok r →
      (nmapTryMutate decV encV toQ fromQ twox mp stp sch tup f s).2 =
        match fromQ (f (toQ (unhashedGet decV s
            (nmapFinalKey twox mp stp sch tup)))).2 with
        | some v => storePut s (nmapFinalKey twox mp stp sch tup) (encV v)
        | none => storeKill s (nmapFinalKey twox mp stp sch tup)) ∧
    (∀ (g : Option Nat → Except E R × Option Nat) (e : E),
      (g (unhashedGet decV s (nmapFinalKey twox mp stp sch tup))).1 =
        Except.error e →
      (nmapTryMutateExists decV encV twox mp stp sch tup g s).2 = s) := by
  refine ⟨?_, ?_, ?_, ?_⟩
  · rw [nmapTryMutate_eq]
    cases hp : (f (toQ (unhashedGet decV s
        (nmapFinalKey twox mp stp sch tup)))).1 with
    | error e => simp [hp]
    | ok r =>
      cases hq : fromQ (f (toQ (unhashedGet decV s
          (nmapFinalKey twox mp stp sch tup)))).2 <;> simp [hp, hq]
  · intro e he
    rw [nmapTryMutate_eq]
    simp [he]
  · intro r hr
    rw [nmapTryMutate_eq]
    cases hq : fromQ (f (toQ (unhashedGet decV s
        (nmapFinalKey twox mp stp sch tup)))).2 <;> simp [hr, hq]
  · intro g e he
    rw [nmapTryMutateExists_eq]
    simp [he]

/-- Witness for C3: a failing closure leaves a concrete one-entry store
untouched, and a succeeding closure writes the re-derived value back. -/
theorem nmap_try_mutate_atomic_w :
    (((fun _ : Option Nat => ((Except.error () : Except Unit Unit),
        (some 99 : Option Nat)))
      (id (unhashedGet mockDecV [([7, 7, 9, 0], [5])]
        (nmapFinalKey mockTwox [1] [2] [mockSlot] [0])))).1 =
      Except.error () ∧
    (nmapTryMutate mockDecV mockEncV id id mockTwox [1] [2] [mockSlot] [0]
      (fun _ : Option Nat => ((Except.error () : Except Unit Unit),
        (some 99 : Option Nat))) [([7, 7, 9, 0], [5])]).2 =
      [([7, 7, 9, 0], [5])]) ∧
    (((fun _ : Option Nat => ((Except.ok () : Except Unit Unit),
        (some 3 : Option Nat)))
      (id (unhashedGet mockDecV [([7, 7, 9, 0], [5])]
        (nmapFinalKey mockTwox [1] [2] [mockSlot] [0])))).1 =
      Except.ok () ∧
    (nmapTryMutate mockDecV mockEncV id id mockTwox [1] [2] [mockSlot] [0]
      (fun _ : Option Nat => ((Except.ok () : Except Unit Unit),
        (some 3 : Option Nat))) [([7, 7, 9, 0], [5])]).2 =
      storePut [([7, 7, 9, 0], [5])]
        (nmapFinalKey mockTwox [1] [2] [mockSlot] [0]) (mockEncV 3)) :=
  ⟨⟨rfl,
    (nmap_try_mutate_atomic mockDecV mockEncV id id mockTwox [1] [2]
      [mockSlot] [0] (fun _ : Option Nat =>
        ((Except.error () : Except Unit Unit), (some 99 : Option Nat)))
      [([7, 7, 9, 0], [5])]).2.1 () rfl⟩,
  ⟨rfl,
    by
      have h := (nmap_try_mutate_atomic mockDecV mockEncV id id mockTwox
        [1] [2] [mockSlot] [0] (fun _ : Option Nat =>
          ((Except.ok () : Except Unit Unit), (some 3 : Option Nat)))
        [([7, 7, 9, 0], [5])]).2.2.1 () rfl
      exact h.trans rfl⟩⟩

/-- Claim C9: `mutate` is exactly `try_mutate` with the `Ok`-wrapped
closure over the uninhabited error type (and `mutate_exists` likewise for
`try_mutate_exists`): the error branch is unreachable, so `mutate` always
performs the write-back and returns the closure's result. -/
theorem nmap_mutate_refines_try_mutate {Q R : Type} (decV : Bytes → Option Nat)
    (encV : Nat → Bytes) (toQ : Option Nat → Q) (fromQ : Q → Option Nat)
    (twox : Bytes → Bytes) (mp stp : Bytes) (sch : List Slot) (tup : List Nat)
    (f : Q → R × Q) (fe : Option Nat → R × Option Nat) (s : Store) :
    nmapTryMutate decV encV toQ fromQ twox mp stp sch tup (okWrap f) s =
      (Except.ok (nmapMutate decV encV toQ fromQ twox mp stp sch tup f s).1,
       (nmapMutate decV encV toQ fromQ twox mp stp sch tup f s).2) ∧
    nmapMutate decV encV toQ fromQ twox mp stp sch tup f s =
      ((f (toQ (unhashedGet decV s (nmapFinalKey twox mp stp sch tup)))).1,
       match fromQ (f (toQ (unhashedGet decV s
           (nmapFinalKey twox mp stp sch tup)))).2 with
       | some v => storePut s (nmapFinalKey twox mp stp sch tup) (encV v)
       | none => storeKill s (nmapFinalKey twox mp stp sch tup)) ∧
    nmapTryMutateExists decV encV twox mp stp sch tup (okWrapE fe) s =
      (Except.ok
        (nmapMutateExists decV encV twox mp stp sch tup fe s).1,
       (nmapMutateExists decV encV twox mp stp sch tup fe s).2) ∧
    nmapMutateExists decV encV twox mp stp sch tup fe s =
      ((fe (unhashedGet decV s (nmapFinalKey twox mp stp sch tup))).1,
       match (fe (unhashedGet decV s
           (nmapFinalKey twox mp stp sch tup))).2 with
       | some v => storePut s (nmapFinalKey twox mp stp sch tup) (encV v)
       | none => storeKill s (nmapFinalKey twox mp stp sch tup)) := by
  refine ⟨?_, ?_, ?_, ?_⟩
  · rw [nmapTryMutate_eq, nmapMutate_eq]
    simp only [okWrap]
    cases hq : fromQ (f (toQ (unhashedGet decV s
        (nmapFinalKey twox mp stp sch tup)))).2 <;> simp [hq]
  · rw [nmapMutate_eq]
    cases hq : fromQ (f (toQ (unhashedGet decV s
        (nmapFinalKey twox mp stp sch tup)))).2 <;> simp [hq]
  · rw [nmapTryMutateExists_eq, nmapMutateExists_eq]
    simp only [okWrapE]
    cases hq : (fe (unhashedGet decV s
        (nmapFinalKey twox mp stp sch tup))).2 <;> simp [hq]
  · rw [nmapMutateExists_eq]
    cases hq : (fe (unhashedGet decV s
        (nmapFinalKey twox mp stp sch tup))).2 <;> simp [hq]

/-- Claim C8: `take` returns `from_optional_value_to_query` of the value
previously stored at the final key and removes the entry, so the key is
absent right afterwards; `take` on an absent key returns the query for
`none` and leaves the store unchanged. (The stored entry is assumed to be
a valid encoding, as every entry written by this map is.) -/
theorem nmap_take_spec {Q : Type} (decV : Bytes → Option Nat)
    (toQ : Option Nat → Q) (twox : Bytes → Bytes) (mp stp : Bytes)
    (sch : List Slot) (tup : List Nat) (s : Store) :
    (storeLookup s (nmapFinalKey twox mp stp sch tup) = none →
      nmapTake decV toQ twox mp stp sch tup s = (toQ none, s)) ∧
    (∀ bs v, storeLookup s (nmapFinalKey twox mp stp sch tup) = some bs →
      decV bs = some v →
      nmapTake decV toQ twox mp stp sch tup s =
        (toQ (some v), storeKill s (nmapFinalKey twox mp stp sch tup)) ∧
      storeLookup
        (storeKill s (nmapFinalKey twox mp stp sch tup))
        (nmapFinalKey twox mp stp sch tup) = none) := by
  constructor
  · intro h
    simp [nmapTake, unhashedTake, unhashedGet, h]
  · intro bs v hbs hv
    refine ⟨?_, storeLookup_kill_self s _⟩
    simp [nmapTake, unhashedTake, unhashedGet, hbs, hv]

/-- Witness for C8: a present entry is taken and removed; an absent key
leaves the empty store unchanged. -/
theorem nmap_take_spec_w :
    (storeLookup ([] : Store) (nmapFinalKey mockTwox [1] [2] [mockSlot] [0]) =
      none ∧
     nmapTake mockDecV id mockTwox [1] [2] [mockSlot] [0] ([] : Store) =
      (id none, ([] : Store))) ∧
    (storeLookup [([7, 7, 9, 0], [5])]
        (nmapFinalKey mockTwox [1] [2] [mockSlot] [0]) = some [5] ∧
     mockDecV [5] = some 5 ∧
     nmapTake mockDecV id mockTwox [1] [2] [mockSlot] [0]
        [([7, 7, 9, 0], [5])] =
      (id (some 5),
       storeKill [([7, 7, 9, 0], [5])]
         (nmapFinalKey mockTwox [1] [2] [mockSlot] [0])) ∧
     storeLookup
       (storeKill [([7, 7, 9, 0], [5])]
         (nmapFinalKey mockTwox [1] [2] [mockSlot] [0]))
       (nmapFinalKey mockTwox [1] [2] [mockSlot] [0]) = none) :=
  ⟨⟨by decide,
    (nmap_take_spec mockDecV id mockTwox [1] [2] [mockSlot] [0] []).1
      (by decide)⟩,
   by
    refine ⟨by decide, by decide, ?_⟩
    exact (nmap_take_spec mockDecV id mockTwox [1] [2] [mockSlot] [0]
      [([7, 7, 9, 0], [5])]).2 [5] 5 (by decide) (by decide)⟩

/-- Claim C5: `swap` exchanges the raw bytes stored at the two final keys
(which may be resolved through different key schemas): the value afterwards
at each key is the value beforehand at the other, every other key is
untouched, and swapping two absent keys leaves the store unchanged. -/
theorem nmap_swap_spec (twox : Bytes → Bytes) (mp stp : Bytes)
    (sch1 sch2 : List Slot) (tup1 tup2 : List Nat) (s : Store)
    (hne : nmapFinalKey twox mp stp sch1 tup1 ≠
      nmapFinalKey twox mp stp sch2 tup2) :
    (storeLookup (nmapSwap twox mp stp sch1 tup1 sch2 tup2 s)
        (nmapFinalKey twox mp stp sch1 tup1) =
      storeLookup s (nmapFinalKey twox mp stp sch2 tup2)) ∧
    (storeLookup (nmapSwap twox mp stp sch1 tup1 sch2 tup2 s)
        (nmapFinalKey twox mp stp sch2 tup2) =
      storeLookup s (nmapFinalKey twox mp stp sch1 tup1)) ∧
    (∀ k, k ≠ nmapFinalKey twox mp stp sch1 tup1 →
      k ≠ nmapFinalKey twox mp stp sch2 tup2 →
      storeLookup (nmapSwap twox mp stp sch1 tup1 sch2 tup2 s) k =
        storeLookup s k) ∧
    (storeLookup s (nmapFinalKey twox mp stp sch1 tup1) = none →
      storeLookup s (nmapFinalKey twox mp stp sch2 tup2) = none →
      nmapSwap twox mp stp sch1 tup1 sch2 tup2 s = s) := by
  simp only [nmapSwap]
  refine ⟨?_, ?_, ?_, ?_⟩
  · cases h1 : storeLookup s (nmapFinalKey twox mp stp sch1 tup1) <;>
      cases h2 : storeLookup s (nmapFinalKey twox mp stp sch2 tup2) <;>
      simp [storeLookup_put_self, storeLookup_put_other _ _ hne,
        storeLookup_kill_self, storeLookup_kill_other _ hne]
  · cases h1 : storeLookup s (nmapFinalKey twox mp stp sch1 tup1) <;>
      cases h2 : storeLookup s (nmapFinalKey twox mp stp sch2 tup2) <;>
      simp [storeLookup_put_self, storeLookup_put_other _ _ (Ne.symm hne),
        storeLookup_kill_self, storeLookup_kill_other _ (Ne.symm hne)]
  · intro k hk1 hk2
    cases h1 : storeLookup s (nmapFinalKey twox mp stp sch1 tup1) <;>
      cases h2 : storeLookup s (nmapFinalKey twox mp stp sch2 tup2) <;>
      simp [storeLookup_put_other _ _ hk1, storeLookup_put_other _ _ hk2,
        storeLookup_kill_other _ hk1, storeLookup_kill_other _ hk2]
  · intro h1 h2
    simp [h1, h2, storeKill_of_lookup_none h1, storeKill_of_lookup_none h2]

/-- Witness for C5: swapping a present entry with an absent one, under two
different one-slot schemas over the same identifiers. -/
theorem nmap_swap_spec_w :
    nmapFinalKey mockTwox [1] [2] [mockSlot] [0] ≠
      nmapFinalKey mockTwox [1] [2] [mockSlotB] [0] ∧
    ((storeLookup (nmapSwap mockTwox [1] [2] [mockSlot] [0] [mockSlotB] [0]
        [([7, 7, 9, 0], [5])])
        (nmapFinalKey mockTwox [1] [2] [mockSlot] [0]) =
      storeLookup [([7, 7, 9, 0], [5])]
        (nmapFinalKey mockTwox [1] [2] [mockSlotB] [0])) ∧
    (storeLookup (nmapSwap mockTwox [1] [2] [mockSlot] [0] [mockSlotB] [0]
        [([7, 7, 9, 0], [5])])
        (nmapFinalKey mockTwox [1] [2] [mockSlotB] [0]) =
      storeLookup [([7, 7, 9, 0], [5])]
        (nmapFinalKey mockTwox [1] [2] [mockSlot] [0])) ∧
    (∀ k, k ≠ nmapFinalKey mockTwox [1] [2] [mockSlot] [0] →
      k ≠ nmapFinalKey mockTwox [1] [2] [mockSlotB] [0] →
      storeLookup (nmapSwap mockTwox [1] [2] [mockSlot] [0] [mockSlotB] [0]
        [([7, 7, 9, 0], [5])]) k =
        storeLookup [([7, 7, 9, 0], [5])] k) ∧
    (storeLookup [([7, 7, 9, 0], [5])]
        (nmapFinalKey mockTwox [1] [2] [mockSlot] [0]) = none →
      storeLookup [([7, 7, 9, 0], [5])]
        (nmapFinalKey mockTwox [1] [2] [mockSlotB] [0]) = none →
      nmapSwap mockTwox [1] [2] [mockSlot] [0] [mockSlotB] [0]
        [([7, 7, 9, 0], [5])] = [([7, 7, 9, 0], [5])])) :=
  ⟨by decide,
   nmap_swap_spec mockTwox [1] [2] [mockSlot] [mockSlotB] [0] [0]
     [([7, 7, 9, 0], [5])] (by decide)⟩

/-- Counterexample to claim C6 as stated: when the alternate hashers
produce the same final key as the current schema, a successful first
`migrate_keys` re-writes the value in place, so a second call again
returns `Some` rather than `None`. -/
theorem nmap_migrate_keys_cex :
    (nmapMigrateKeys mockDecV mockEncV mockTwox [1] [2] [mockSlot] [mockSlot]
      [0] [([7, 7, 9, 0], [5])]).1 = some 5 ∧
    (nmapMigrateKeys mockDecV mockEncV mockTwox [1] [2] [mockSlot] [mockSlot]
      [0]
      (nmapMigrateKeys mockDecV mockEncV mockTwox [1] [2] [mockSlot]
        [mockSlot] [0] [([7, 7, 9, 0], [5])]).2).1 = some 5 ∧
    (nmapMigrateKeys mockDecV mockEncV mockTwox [1] [2] [mockSlot] [mockSlot]
      [0]
      (nmapMigrateKeys mockDecV mockEncV mockTwox [1] [2] [mockSlot]
        [mockSlot] [0] [([7, 7, 9, 0], [5])]).2).1 ≠ none :=
  ⟨rfl, rfl, by decide⟩

/-- Claim C6 (amended): `migrate_keys` computes the legacy final key from
the alternate hashers; when a value is stored (as a valid encoding) under
the legacy key, it deletes that entry, writes the value under the current
schema's final key, and returns `some value`; when the legacy key is
absent it returns `none` and leaves the store unchanged. Provided the
legacy key differs from the current final key, a second call after a
successful migration therefore returns `none` and changes nothing. -/
theorem nmap_migrate_keys_amended (decV : Bytes → Option Nat)
    (encV : Nat → Bytes) (twox : Bytes → Bytes) (mp stp : Bytes)
    (sch schOld : List Slot) (tup : List Nat) (s : Store) (bs : Bytes)
    (v : Nat)
    (hne : twox mp ++ twox stp ++ keySfx schOld tup ≠
      nmapFinalKey twox mp stp sch tup)
    (hbs : storeLookup s (twox mp ++ twox stp ++ keySfx schOld tup) = some bs)
    (hdec : decV bs = some v) :
    nmapMigrateKeys decV encV twox mp stp sch schOld tup s =
      (some v,
       storePut (storeKill s (twox mp ++ twox stp ++ keySfx schOld tup))
         (nmapFinalKey twox mp stp sch tup) (encV v)) ∧
    storeLookup (nmapMigrateKeys decV encV twox mp stp sch schOld tup s).2
      (twox mp ++ twox stp ++ keySfx schOld tup) = none ∧
    nmapMigrateKeys decV encV twox mp stp sch schOld tup
      (nmapMigrateKeys decV encV twox mp stp sch schOld tup s).2 =
      (none, (nmapMigrateKeys decV encV twox mp stp sch schOld tup s).2) ∧
    (∀ t : Store,
      storeLookup t (twox mp ++ twox stp ++ keySfx schOld tup) = none →
      nmapMigrateKeys decV encV twox mp stp sch schOld tup t = (none, t)) := by
  have habs : ∀ t : Store,
      storeLookup t (twox mp ++ twox stp ++ keySfx schOld tup) = none →
      nmapMigrateKeys decV encV twox mp stp sch schOld tup t = (none, t) := by
    intro t ht
    rw [List.append_assoc] at ht
    simp [nmapMigrateKeys, unhashedTake, unhashedGet, ht]
  have hbs2 := hbs
  rw [List.append_assoc] at hbs2
  have hfst : nmapMigrateKeys decV encV twox mp stp sch schOld tup s =
      (some v,
       storePut (storeKill s (twox mp ++ twox stp ++ keySfx schOld tup))
         (nmapFinalKey twox mp stp sch tup) (encV v)) := by
    simp [nmapMigrateKeys, unhashedTake, unhashedGet, hbs2, hdec]
  have hgone : storeLookup
      (nmapMigrateKeys decV encV twox mp stp sch schOld tup s).2
      (twox mp ++ twox stp ++ keySfx schOld tup) = none := by
    rw [hfst]
    rw [storeLookup_put_other _ _ hne]
    exact storeLookup_kill_self s _
  exact ⟨hfst, hgone, habs _ hgone, habs⟩

/-- Witness for C6 (amended) with a distinct legacy schema. -/
theorem nmap_migrate_keys_amended_w :
    mockTwox [1] ++ mockTwox [2] ++ keySfx [mockSlotB] [0] ≠
      nmapFinalKey mockTwox [1] [2] [mockSlot] [0] ∧
    storeLookup [([7, 7, 8, 0], [5])]
      (mockTwox [1] ++ mockTwox [2] ++ keySfx [mockSlotB] [0]) = some [5] ∧
    mockDecV [5] = some 5 ∧
    (nmapMigrateKeys mockDecV mockEncV mockTwox [1] [2] [mockSlot]
        [mockSlotB] [0] [([7, 7, 8, 0], [5])] =
      (some 5,
       storePut
         (storeKill [([7, 7, 8, 0], [5])]
           (mockTwox [1] ++ mockTwox [2] ++ keySfx [mockSlotB] [0]))
         (nmapFinalKey mockTwox [1] [2] [mockSlot] [0]) (mockEncV 5)) ∧
     storeLookup
       (nmapMigrateKeys mockDecV mockEncV mockTwox [1] [2] [mockSlot]
         [mockSlotB] [0] [([7, 7, 8, 0], [5])]).2
       (mockTwox [1] ++ mockTwox [2] ++ keySfx [mockSlotB] [0]) = none ∧
     nmapMigrateKeys mockDecV mockEncV mockTwox [1] [2] [mockSlot]
        [mockSlotB] [0]
        (nmapMigrateKeys mockDecV mockEncV mockTwox [1] [2] [mockSlot]
          [mockSlotB] [0] [([7, 7, 8, 0], [5])]).2 =
      (none,
       (nmapMigrateKeys mockDecV mockEncV mockTwox [1] [2] [mockSlot]
         [mockSlotB] [0] [([7, 7, 8, 0], [5])]).2) ∧
     (∀ t : Store,
       storeLookup t (mockTwox [1] ++ mockTwox [2] ++ keySfx [mockSlotB] [0]) =
         none →
       nmapMigrateKeys mockDecV mockEncV mockTwox [1] [2] [mockSlot]
         [mockSlotB] [0] t = (none, t))) :=
  ⟨by decide, by decide, by decide,
   nmap_migrate_keys_amended mockDecV mockEncV mockTwox [1] [2] [mockSlot]
     [mockSlotB] [0] [([7, 7, 8, 0], [5])] [5] 5 (by decide) (by decide)
     (by decide)⟩

/-- Counterexample to claim C4 as stated: the error type of `try_get` is
the unit type, so a key whose stored bytes fail to decode produces exactly
the same `Err(())` as a key that is not present at all; the two cases are
not distinguishable through `try_get`. -/
theorem nmap_try_get_cex :
    storeLookup [([7, 7, 9, 0], [9, 9])]
      (nmapFinalKey mockTwox [1] [2] [mockSlot] [0]) = some [9, 9] ∧
    mockDecV [9, 9] = none ∧
    nmapTryGet mockDecV mockTwox [1] [2] [mockSlot] [0]
      [([7, 7, 9, 0], [9, 9])] = Except.error () ∧
    storeLookup ([] : Store)
      (nmapFinalKey mockTwox [1] [2] [mockSlot] [0]) = none ∧
    nmapTryGet mockDecV mockTwox [1] [2] [mockSlot] [0] ([] : Store) =
      Except.error () ∧
    nmapTryGet mockDecV mockTwox [1] [2] [mockSlot] [0]
      [([7, 7, 9, 0], [9, 9])] =
      nmapTryGet mockDecV mockTwox [1] [2] [mockSlot] [0] ([] : Store) :=
  ⟨rfl, rfl, rfl, rfl, rfl, rfl⟩

/-- Claim C4 (amended): stored bytes that fail to decode as the value type
are treated by the read operations exactly like an absent key: `try_get`
returns the same `Err(())` unit error in both cases, and `get` yields the
query for `none`, so a caller cannot tell a corrupt stored value apart
from a missing one. -/
theorem nmap_try_get_decode_failure {Q : Type} (decV : Bytes → Option Nat)
    (toQ : Option Nat → Q) (twox : Bytes → Bytes) (mp stp : Bytes)
    (sch : List Slot) (tup : List Nat) (s : Store) (bs : Bytes)
    (hbs : storeLookup s (nmapFinalKey twox mp stp sch tup) = some bs)
    (hdec : decV bs = none) :
    nmapTryGet decV twox mp stp sch tup s = Except.error () ∧
    (∀ t : Store, storeLookup t (nmapFinalKey twox mp stp sch tup) = none →
      nmapTryGet decV twox mp stp sch tup t = Except.error ()) ∧
    nmapGet decV toQ twox mp stp sch tup s = toQ none := by
  refine ⟨?_, ?_, ?_⟩
  · simp [nmapTryGet, unhashedGet, hbs, hdec]
  · intro t ht
    simp [nmapTryGet, unhashedGet, ht]
  · simp [nmapGet, unhashedGet, hbs, hdec]

/-- Witness for C4 (amended) at a concrete corrupt entry. -/
theorem nmap_try_get_decode_failure_w :
    storeLookup [([7, 7, 9, 0], [9, 9])]
      (nmapFinalKey mockTwox [1] [2] [mockSlot] [0]) = some [9, 9] ∧
    mockDecV [9, 9] = none ∧
    (nmapTryGet mockDecV mockTwox [1] [2] [mockSlot] [0]
        [([7, 7, 9, 0], [9, 9])] = Except.error () ∧
     (∀ t : Store,
       storeLookup t (nmapFinalKey mockTwox [1] [2] [mockSlot] [0]) = none →
       nmapTryGet mockDecV mockTwox [1] [2] [mockSlot] [0] t =
         Except.error ()) ∧
     nmapGet mockDecV id mockTwox [1] [2] [mockSlot] [0]
       [([7, 7, 9, 0], [9, 9])] = id none) :=
  ⟨by decide, by decide,
   nmap_try_get_decode_failure mockDecV id mockTwox [1] [2] [mockSlot] [0]
     [([7, 7, 9, 0], [9, 9])] [9, 9] (by decide) (by decide)⟩

/-- Claim C10: every single-key operation touches only the store entry at
`storage_n_map_final_key` of its key argument: the mutating operations
(insert, remove, take, mutate, try_mutate, mutate_exists,
try_mutate_exists, append) leave every other raw key unchanged, and the
read operations (get, try_get, contains_key) depend only on the entry at
the final key. -/
theorem nmap_single_key_frame {Q E R : Type} (decV : Bytes → Option Nat)
    (encV : Nat → Bytes) (toQ : Option Nat → Q) (fromQ : Q → Option Nat)
    (twox : Bytes → Bytes) (mp stp : Bytes) (sch : List Slot) (tup : List Nat)
    (v : Nat) (itemBytes : Bytes) (f : Q → R × Q) (g : Q → Except E R × Q)
    (fe : Option Nat → R × Option Nat)
    (ge : Option Nat → Except E R × Option Nat) (s t : Store) (k : Bytes)
    (hk : k ≠ nmapFinalKey twox mp stp sch tup)
    (hst : storeLookup s (nmapFinalKey twox mp stp sch tup) =
      storeLookup t (nmapFinalKey twox mp stp sch tup)) :
    storeLookup (nmapInsert encV twox mp stp sch tup v s) k =
      storeLookup s k ∧
    storeLookup (nmapRemove twox mp stp sch tup s) k = storeLookup s k ∧
    storeLookup (nmapTake decV toQ twox mp stp sch tup s).2 k =
      storeLookup s k ∧
    storeLookup (nmapMutate decV encV toQ fromQ twox mp stp sch tup f s).2 k =
      storeLookup s k ∧
    storeLookup
      (nmapTryMutate decV encV toQ fromQ twox mp stp sch tup g s).2 k =
      storeLookup s k ∧
    storeLookup (nmapMutateExists decV encV twox mp stp sch tup fe s).2 k =
      storeLookup s k ∧
    storeLookup (nmapTryMutateExists decV encV twox mp stp sch tup ge s).2 k =
      storeLookup s k ∧
    storeLookup (nmapAppend twox mp stp sch tup itemBytes s) k =
      storeLookup s k ∧
    nmapGet decV toQ twox mp stp sch tup s =
      nmapGet decV toQ twox mp stp sch tup t ∧
    nmapTryGet decV twox mp stp sch tup s =
      nmapTryGet decV twox mp stp sch tup t ∧
    nmapContainsKey twox mp stp sch tup s =
      nmapContainsKey twox mp stp sch tup t := by
  refine ⟨?_, ?_, ?_, ?_, ?_, ?_, ?_, ?_, ?_, ?_, ?_⟩
  · simp [nmapInsert, storeLookup_put_other _ _ hk]
  · simp [nmapRemove, storeLookup_kill_other _ hk]
  · simp only [nmapTake, unhashedTake]
    cases h : unhashedGet decV s (nmapFinalKey twox mp stp sch tup) <;>
      simp [h, storeLookup_kill_other _ hk]
  · rw [nmapMutate_eq]
    cases hq : fromQ (f (toQ (unhashedGet decV s
        (nmapFinalKey twox mp stp sch tup)))).2 <;>
      simp [hq, storeLookup_put_other _ _ hk, storeLookup_kill_other _ hk]
  · rw [nmapTryMutate_eq]
    cases hp : (g (toQ (unhashedGet decV s
        (nmapFinalKey twox mp stp sch tup)))).1 with
    | error e => simp [hp]
    | ok r =>
      cases hq : fromQ (g (toQ (unhashedGet decV s
          (nmapFinalKey twox mp stp sch tup)))).2 <;>
        simp [hp, hq, storeLookup_put_other _ _ hk,
          storeLookup_kill_other _ hk]
  · rw [nmapMutateExists_eq]
    cases hq : (fe (unhashedGet decV s
        (nmapFinalKey twox mp stp sch tup))).2 <;>
      simp [hq, storeLookup_put_other _ _ hk, storeLookup_kill_other _ hk]
  · rw [nmapTryMutateExists_eq]
    cases hp : (ge (unhashedGet decV s
        (nmapFinalKey twox mp stp sch tup))).1 with
    | error e => simp [hp]
    | ok r =>
      cases hq : (ge (unhashedGet decV s
          (nmapFinalKey twox mp stp sch tup))).2 <;>
        simp [hp, hq, storeLookup_put_other _ _ hk,
          storeLookup_kill_other _ hk]
  · simp [nmapAppend, storeAppend, storeLookup_put_other _ _ hk]
  · simp [nmapGet, unhashedGet, hst]
  · simp [nmapTryGet, unhashedGet, hst]
  · simp [nmapContainsKey, storeExists, hst]

/-- Witness for C10 at a concrete store, with a raw key outside the final
key of the operated tuple. -/
theorem nmap_single_key_frame_w :
    ([0] : Bytes) ≠ nmapFinalKey mockTwox [1] [2] [mockSlot] [0] ∧
    storeLookup [([7, 7, 9, 0], [5])]
      (nmapFinalKey mockTwox [1] [2] [mockSlot] [0]) =
      storeLookup [([0], [9]), ([7, 7, 9, 0], [5])]
        (nmapFinalKey mockTwox [1] [2] [mockSlot] [0]) ∧
    (storeLookup (nmapInsert mockEncV mockTwox [1] [2] [mockSlot] [0] 4
        [([7, 7, 9, 0], [5])]) [0] =
      storeLookup [([7, 7, 9, 0], [5])] [0] ∧
    storeLookup (nmapRemove mockTwox [1] [2] [mockSlot] [0]
        [([7, 7, 9, 0], [5])]) [0] = storeLookup [([7, 7, 9, 0], [5])] [0] ∧
    storeLookup (nmapTake mockDecV id mockTwox [1] [2] [mockSlot] [0]
        [([7, 7, 9, 0], [5])]).2 [0] = storeLookup [([7, 7, 9, 0], [5])] [0] ∧
    storeLookup (nmapMutate mockDecV mockEncV id id mockTwox [1] [2]
        [mockSlot] [0] (fun q : Option Nat => (7, q))
        [([7, 7, 9, 0], [5])]).2 [0] = storeLookup [([7, 7, 9, 0], [5])] [0] ∧
    storeLookup (nmapTryMutate mockDecV mockEncV id id mockTwox [1] [2]
        [mockSlot] [0]
        (fun q : Option Nat => ((Except.ok 7 : Except Unit Nat), q))
        [([7, 7, 9, 0], [5])]).2 [0] = storeLookup [([7, 7, 9, 0], [5])] [0] ∧
    storeLookup (nmapMutateExists mockDecV mockEncV mockTwox [1] [2]
        [mockSlot] [0] (fun q : Option Nat => (7, q))
        [([7, 7, 9, 0], [5])]).2 [0] = storeLookup [([7, 7, 9, 0], [5])] [0] ∧
    storeLookup (nmapTryMutateExists mockDecV mockEncV mockTwox [1] [2]
        [mockSlot] [0]
        (fun q : Option Nat => ((Except.ok 7 : Except Unit Nat), q))
        [([7, 7, 9, 0], [5])]).2 [0] = storeLookup [([7, 7, 9, 0], [5])] [0] ∧
    storeLookup (nmapAppend mockTwox [1] [2] [mockSlot] [0] [3]
        [([7, 7, 9, 0], [5])]) [0] = storeLookup [([7, 7, 9, 0], [5])] [0] ∧
    nmapGet mockDecV id mockTwox [1] [2] [mockSlot] [0]
        [([7, 7, 9, 0], [5])] =
      nmapGet mockDecV id mockTwox [1] [2] [mockSlot] [0]
        [([0], [9]), ([7, 7, 9, 0], [5])] ∧
    nmapTryGet mockDecV mockTwox [1] [2] [mockSlot] [0]
        [([7, 7, 9, 0], [5])] =
      nmapTryGet mockDecV mockTwox [1] [2] [mockSlot] [0]
        [([0], [9]), ([7, 7, 9, 0], [5])] ∧
    nmapContainsKey mockTwox [1] [2] [mockSlot] [0] [([7, 7, 9, 0], [5])] =
      nmapContainsKey mockTwox [1] [2] [mockSlot] [0]
        [([0], [9]), ([7, 7, 9, 0], [5])]) :=
  ⟨by decide, by decide,
   nmap_single_key_frame mockDecV mockEncV id id mockTwox [1] [2] [mockSlot]
     [0] 4 [3] (fun q : Option Nat => (7, q))
     (fun q : Option Nat => ((Except.ok 7 : Except Unit Nat), q))
     (fun q : Option Nat => (7, q))
     (fun q : Option Nat => ((Except.ok 7 : Except Unit Nat), q))
     [([7, 7, 9, 0], [5])] [([0], [9]), ([7, 7, 9, 0], [5])] [0]
     (by decide) (by decide)⟩

theorem isPrefixOf_append_self (p x : Bytes) : p.isPrefixOf (p ++ x) = true := by
  induction p with
  | nil => simp [List.isPrefixOf]
  | cons a as ih => simp [List.isPrefixOf, ih]

theorem filter_isNone_eq_nil {β γ : Type} {l : List β} {h : β → Option γ}
    (H : ∀ p ∈ l, (h p).isSome = true) :
    l.filter (fun e => (h e).isNone) = [] := by
  induction l with
  | nil => rfl
  | cons x xs ih =>
    have hx := H x (by simp)
    cases hhx : h x with
    | none => rw [hhx] at hx; simp at hx
    | some y =>
      simp only [List.filter_cons, hhx, Option.isNone_some]
      exact ih fun p hp => H p (by simp [hp])

/-- Claim C2: over a store holding exactly the entries inserted under the
map's namespace plus one sentinel entry just below and one just above the
namespace, `iter` yields exactly the inserted entries in the store's key
order and leaves the store unchanged, while `drain` yields the same
entries and removes every namespace entry, leaving the sentinels in
place. -/
theorem nmap_iter_drain_spec (twox : Bytes → Bytes) (mp stp : Bytes)
    (sch : List Slot) (decV : Bytes → Option Nat) (encV : Nat → Bytes)
    (ins : List (List Nat × Nat)) (kb vb ka va : Bytes) (fuel : Nat)
    (hfuel : ins.length < fuel)
    (hkb : bytesLt kb (pfxHash twox mp stp) = true)
    (hka1 : (pfxHash twox mp stp).isPrefixOf ka = false)
    (hka2 : bytesLt (pfxHash twox mp stp) ka = true)
    (hpw : List.Pairwise entryLt
      ((kb, vb) ::
        (ins.map fun p => (pfxHash twox mp stp ++ keySfx sch p.1, encV p.2)) ++
        [(ka, va)]))
    (hsfx : ∀ p ∈ ins, keySfx sch p.1 ≠ [])
    (hrt : ∀ p ∈ ins, decodeKeySfx sch (keySfx sch p.1) = some (p.1, []) ∧
      decV (encV p.2) = some p.2) :
    nmapIterRun sch decV twox mp stp fuel
      ((kb, vb) ::
        (ins.map fun p => (pfxHash twox mp stp ++ keySfx sch p.1, encV p.2)) ++
        [(ka, va)]) =
      (ins,
       (kb, vb) ::
        (ins.map fun p => (pfxHash twox mp stp ++ keySfx sch p.1, encV p.2)) ++
        [(ka, va)]) ∧
    nmapDrainRun sch decV twox mp stp fuel
      ((kb, vb) ::
        (ins.map fun p => (pfxHash twox mp stp ++ keySfx sch p.1, encV p.2)) ++
        [(ka, va)]) =
      (ins, [(kb, vb), (ka, va)]) := by
  have hA : ∀ e ∈ ([( kb, vb)] : Store),
      bytesLt (pfxHash twox mp stp) e.1 = false := by
    intro e he
    rcases List.mem_singleton.mp he with rfl
    exact bytesLt_asymm hkb
  have hc : ∀ e ∈ (ins.map fun p =>
        (pfxHash twox mp stp ++ keySfx sch p.1, encV p.2)) ++ [(ka, va)],
      bytesLt (pfxHash twox mp stp) e.1 = true := by
    intro e he
    rcases List.mem_append.mp he with h1 | h1
    · obtain ⟨p, hp, rfl⟩ := List.mem_map.mp h1
      exact bytesLt_append (hsfx p hp)
    · rcases List.mem_singleton.mp h1 with rfl
      exact hka2
  have hpw' := (List.pairwise_cons.mp hpw).2
  have hM : ∀ e ∈ ins.map fun p =>
        (pfxHash twox mp stp ++ keySfx sch p.1, encV p.2),
      (pfxHash twox mp stp).isPrefixOf e.1 = true := by
    intro e he
    obtain ⟨p, hp, rfl⟩ := List.mem_map.mp he
    exact isPrefixOf_append_self _ _
  have hR : ∀ e ∈ ([(ka, va)] : Store).take 1,
      (pfxHash twox mp stp).isPrefixOf e.1 = false := by
    intro e he
    rcases List.mem_singleton.mp (by simpa using he) with rfl
    exact hka1
  have hfuel' : (ins.map fun p =>
      (pfxHash twox mp stp ++ keySfx sch p.1, encV p.2)).length < fuel := by
    simpa using hfuel
  have hyields : (ins.map fun p =>
        (pfxHash twox mp stp ++ keySfx sch p.1, encV p.2)).filterMap
      (fun e => iterClosure sch decV
        (e.1.drop (pfxHash twox mp stp).length) e.2) = ins := by
    rw [List.filterMap_map]
    apply filterMap_id_of_some
    intro p hp
    have h1 := (hrt p hp).1
    have h2 := (hrt p hp).2
    simp [Function.comp, iterClosure, List.drop_left, h1, h2]
  have hsome : ∀ e ∈ ins.map fun p =>
        (pfxHash twox mp stp ++ keySfx sch p.1, encV p.2),
      (iterClosure sch decV
        (e.1.drop (pfxHash twox mp stp).length) e.2).isSome = true := by
    intro e he
    obtain ⟨p, hp, rfl⟩ := List.mem_map.mp he
    have h1 := (hrt p hp).1
    have h2 := (hrt p hp).2
    simp [iterClosure, List.drop_left, h1, h2]
  constructor
  · have h := pfxIterLoop_split (iterClosure sch decV) (pfxHash twox mp stp)
      false (ins.map fun p =>
        (pfxHash twox mp stp ++ keySfx sch p.1, encV p.2)) fuel
      [(kb, vb)] [(ka, va)] (pfxHash twox mp stp) hfuel' hA hc hpw' hM hR
    simp only [Bool.false_eq_true, if_false] at h
    simpa [nmapIterRun, nmapIterState, hyields] using h
  · have h := pfxIterLoop_split (iterClosure sch decV) (pfxHash twox mp stp)
      true (ins.map fun p =>
        (pfxHash twox mp stp ++ keySfx sch p.1, encV p.2)) fuel
      [(kb, vb)] [(ka, va)] (pfxHash twox mp stp) hfuel' hA hc hpw' hM hR
    simp only [if_true] at h
    rw [filter_isNone_eq_nil hsome] at h
    simpa [nmapDrainRun, nmapDrainState, nmapIterState, hyields] using h

/-- Witness for C2: two inserted entries between two sentinel entries, one
byte below and one byte above the namespace `[7, 7]`. -/
theorem nmap_iter_drain_spec_w :
    ([([0], 0), ([1], 1)] : List (List Nat × Nat)).length < 3 ∧
    bytesLt [7, 6] (pfxHash mockTwox [1] [2]) = true ∧
    (pfxHash mockTwox [1] [2]).isPrefixOf [7, 8] = false ∧
    bytesLt (pfxHash mockTwox [1] [2]) [7, 8] = true ∧
    List.Pairwise entryLt
      (([7, 6], [1]) ::
        (([([0], 0), ([1], 1)] : List (List Nat × Nat)).map fun p =>
          (pfxHash mockTwox [1] [2] ++ keySfx [mockSlot] p.1,
           mockEncV p.2)) ++ [([7, 8], [1])]) ∧
    (∀ p ∈ ([([0], 0), ([1], 1)] : List (List Nat × Nat)),
      keySfx [mockSlot] p.1 ≠ []) ∧
    (∀ p ∈ ([([0], 0), ([1], 1)] : List (List Nat × Nat)),
      decodeKeySfx [mockSlot] (keySfx [mockSlot] p.1) = some (p.1, []) ∧
      mockDecV (mockEncV p.2) = some p.2) ∧
    (nmapIterRun [mockSlot] mockDecV mockTwox [1] [2] 3
        [([7, 6], [1]), ([7, 7, 9, 0], [0]), ([7, 7, 9, 1], [1]),
         ([7, 8], [1])] =
      ([([0], 0), ([1], 1)],
       [([7, 6], [1]), ([7, 7, 9, 0], [0]), ([7, 7, 9, 1], [1]),
        ([7, 8], [1])]) ∧
     nmapDrainRun [mockSlot] mockDecV mockTwox [1] [2] 3
        [([7, 6], [1]), ([7, 7, 9, 0], [0]), ([7, 7, 9, 1], [1]),
         ([7, 8], [1])] =
      ([([0], 0), ([1], 1)], [([7, 6], [1]), ([7, 8], [1])])) :=
  ⟨by decide, by decide, by decide, by decide, by decide, by decide,
   by decide,
   nmap_iter_drain_spec mockTwox [1] [2] [mockSlot] mockDecV mockEncV
     [([0], 0), ([1], 1)] [7, 6] [1] [7, 8] [1] 3 (by decide) (by decide)
     (by decide) (by decide) (by decide) (by decide) (by decide)⟩

/-- Claim C7: `translate` visits every entry under the namespace exactly
once, in store order, leaving everything outside the namespace untouched;
an entry whose key suffix and old value both decode is overwritten in
place with the encoding of `f`'s `Some` result or deleted on `None`, and
an entry whose old value or key suffix fails to decode keeps its raw bytes
unchanged while the pass continues over the remaining entries. -/
theorem nmap_translate_spec (decO : Bytes → Option Nat) (encV : Nat → Bytes)
    (twox : Bytes → Bytes) (mp stp : Bytes) (sch : List Slot)
    (f : List Nat → Nat → Option Nat) (mid : Store) (kb vb ka va : Bytes)
    (fuel : Nat) (hfuel : mid.length < fuel)
    (hkb : bytesLt kb (pfxHash twox mp stp) = true)
    (hka1 : (pfxHash twox mp stp).isPrefixOf ka = false)
    (hka2 : bytesLt (pfxHash twox mp stp) ka = true)
    (hmidp : ∀ e ∈ mid, (pfxHash twox mp stp).isPrefixOf e.1 = true)
    (hmidgt : ∀ e ∈ mid, bytesLt (pfxHash twox mp stp) e.1 = true)
    (hpw : List.Pairwise entryLt ((kb, vb) :: mid ++ [(ka, va)])) :
    nmapTranslate decO encV twox mp stp sch f fuel
        ((kb, vb) :: mid ++ [(ka, va)]) =
      (kb, vb) ::
        (mid.filterMap (translateStep decO encV (pfxHash twox mp stp) sch f)
          ++ [(ka, va)]) ∧
    (∀ e ∈ mid, decO e.2 = none →
      translateStep decO encV (pfxHash twox mp stp) sch f e = some e) ∧
    (∀ e ∈ mid, ∀ value : Nat, decO e.2 = some value →
      decodeKeySfx sch (e.1.drop (pfxHash twox mp stp).length) = none →
      translateStep decO encV (pfxHash twox mp stp) sch f e = some e) ∧
    (∀ e ∈ mid, ∀ (value : Nat) (fk : List Nat) (rest : Bytes),
      decO e.2 = some value →
      decodeKeySfx sch (e.1.drop (pfxHash twox mp stp).length) =
        some (fk, rest) →
      translateStep decO encV (pfxHash twox mp stp) sch f e =
        Option.map (fun nv => (e.1, encV nv)) (f fk value)) := by
  refine ⟨?_, ?_, ?_, ?_⟩
  · have hA : ∀ e ∈ ([(kb, vb)] : Store),
        bytesLt (pfxHash twox mp stp) e.1 = false := by
      intro e he
      rcases List.mem_singleton.mp he with rfl
      exact bytesLt_asymm hkb
    have hc : ∀ e ∈ mid ++ [(ka, va)],
        bytesLt (pfxHash twox mp stp) e.1 = true := by
      intro e he
      rcases List.mem_append.mp he with h1 | h1
      · exact hmidgt e h1
      · rcases List.mem_singleton.mp h1 with rfl
        exact hka2
    have hR : ∀ e ∈ ([(ka, va)] : Store).take 1,
        (pfxHash twox mp stp).isPrefixOf e.1 = false := by
      intro e he
      rcases List.mem_singleton.mp (by simpa using he) with rfl
      exact hka1
    have h := translateLoop_split decO encV (pfxHash twox mp stp) sch f mid
      fuel [(kb, vb)] [(ka, va)] (pfxHash twox mp stp) hfuel hA hc
      (List.pairwise_cons.mp hpw).2 hmidp hR
    simpa [nmapTranslate] using h
  · intro e _he hdv
    simp [translateStep, hdv]
  · intro e _he value hdv hdk
    simp [translateStep, hdv, hdk]
  · intro e _he value fk rest hdv hdk
    cases hf : f fk value <;> simp [translateStep, hdv, hdk, hf]

/-- Witness for C7: one well-formed entry and one entry with a corrupted
value under the same namespace; the doubling translation rewrites the
well-formed entry in place and leaves the corrupted one's raw bytes
unchanged. -/
theorem nmap_translate_spec_w :
    ([([7, 7, 9, 0], [4]), ([7, 7, 9, 1], [5, 5])] : Store).length < 3 ∧
    bytesLt [7, 6] (pfxHash mockTwox [1] [2]) = true ∧
    (pfxHash mockTwox [1] [2]).isPrefixOf [7, 8] = false ∧
    bytesLt (pfxHash mockTwox [1] [2]) [7, 8] = true ∧
    (∀ e ∈ ([([7, 7, 9, 0], [4]), ([7, 7, 9, 1], [5, 5])] : Store),
      (pfxHash mockTwox [1] [2]).isPrefixOf e.1 = true) ∧
    (∀ e ∈ ([([7, 7, 9, 0], [4]), ([7, 7, 9, 1], [5, 5])] : Store),
      bytesLt (pfxHash mockTwox [1] [2]) e.1 = true) ∧
    List.Pairwise entryLt
      (([7, 6], [1]) ::
        [([7, 7, 9, 0], [4]), ([7, 7, 9, 1], [5, 5])] ++ [([7, 8], [1])]) ∧
    (nmapTranslate mockDecV mockEncV mockTwox [1] [2] [mockSlot]
        (fun _ v => some (2 * v)) 3
        (([7, 6], [1]) ::
          [([7, 7, 9, 0], [4]), ([7, 7, 9, 1], [5, 5])] ++ [([7, 8], [1])]) =
      ([7, 6], [1]) ::
        (([([7, 7, 9, 0], [4]), ([7, 7, 9, 1], [5, 5])] : Store).filterMap
          (translateStep mockDecV mockEncV (pfxHash mockTwox [1] [2])
            [mockSlot] (fun _ v => some (2 * v)))
          ++ [([7, 8], [1])]) ∧
     ([([7, 7, 9, 0], [4]), ([7, 7, 9, 1], [5, 5])] : Store).filterMap
        (translateStep mockDecV mockEncV (pfxHash mockTwox [1] [2])
          [mockSlot] (fun _ v => some (2 * v))) =
      [([7, 7, 9, 0], [8]), ([7, 7, 9, 1], [5, 5])]) :=
  ⟨by decide, by decide, by decide, by decide, by decide, by decide,
   by decide,
   ⟨(nmap_translate_spec mockDecV mockEncV mockTwox [1] [2] [mockSlot]
      (fun _ v => some (2 * v))
      [([7, 7, 9, 0], [4]), ([7, 7, 9, 1], [5, 5])] [7, 6] [1] [7, 8] [1] 3
      (by decide) (by decide) (by decide) (by decide) (by decide)
      (by decide) (by decide)).1,
    by decide⟩⟩

end NMapGen
